import Mathlib

/-!
Verification development for the LitNav ingestion-and-retrieval pipeline
(`src/app/main.js`).  The JavaScript source is shallowly embedded:

* text is `List Char` (JS strings are sequences of UTF-16 code units; the
  claims only depend on character counts and slicing, which agree);
* JS numbers are embedded as `ℚ` (exact) for the vector pipeline and as `ℝ`
  for the cosine-similarity formula, which involves `Math.sqrt`;
* `Math.floor(size * 0.8)` for an integer `size` is embedded as `4 * size / 5`
  (natural division): for `size` a multiple of 5 the double rounding error of
  `size * 0.8` is strictly below half an ulp, and otherwise the exact value is
  at least 0.2 away from an integer, so the float floor agrees with the exact
  floor;
* fallible operations return `Option`/`Except`; the embedding provider and
  the page extractor are external collaborators and enter as oracles/data;
* the cooperative cancellation flag is embedded as the index of the first
  cancellation check (one per file in the extract phase, then one per batch
  in the embed phase) at which the shared flag reads true.
-/

namespace LitNav

/-! ## Chunker (`chunkPageText`, main.js lines 129-143) -/

/-- Code points removed by JavaScript `String.prototype.trim` (ECMA-262
WhiteSpace and LineTerminator); the guard in `chunkPageText` only uses
`text.trim().length === 0`. -/
def isJsSpace (c : Char) : Bool :=
  c = ' ' ∨ c = '\t' ∨ c = '\n' ∨ c = '\r' ∨ c = '\x0b' ∨ c = '\x0c' ∨
  c = ' ' ∨ c = '﻿' ∨ c = ' ' ∨ c = ' ' ∨ c = ' ' ∨
  c = ' ' ∨ c = ' ' ∨ c = ' ' ∨ c = ' ' ∨ c = ' ' ∨
  c = ' ' ∨ c = ' ' ∨ c = ' ' ∨ c = ' ' ∨ c = ' ' ∨
  c = ' ' ∨ c = ' ' ∨ c = ' ' ∨ c = '　'

/-- One window produced by the chunker: `{ page, text }`. -/
structure PChunk where
  page : Nat
  text : List Char
  deriving DecidableEq, Repr

/-- `const size = Math.max(200, chunkSize)` (the settings value may be any
integer, hence the `Int` parameter). -/
def effSize (chunkSize : Int) : Nat :=
  (max 200 chunkSize).toNat

/-- `const ov = Math.max(0, Math.min(overlap, Math.floor(size * 0.8)))`;
see the header note for `Math.floor(size * 0.8) = 4 * size / 5`. -/
def effOverlap (chunkSize overlap : Int) : Nat :=
  (max 0 (min overlap ((4 * effSize chunkSize / 5 : Nat) : Int))).toNat

/-- The `while (start < text.length)` loop of `chunkPageText`, phrased on the
remaining suffix of the text: each pass pushes `text.slice(start, start+size)`
and advances `start` by `size - ov`.  The recursion is driven by a fuel
argument so that it is structural (and hence reduces in the kernel); any fuel
at least the remaining length gives the loop's value, since every pass
consumes at least one character.  The `size - ov = 0` branch is unreachable
from `chunkPageText` (there `ov ≤ 4*size/5 < size`); the JS loop would not
terminate in that case. -/
def chunkLoop (size ov page : Nat) : Nat → List Char → List PChunk
  | _, [] => []
  | 0, _ :: _ => []
  | fuel + 1, c :: rest =>
    if size - ov = 0 then []
    else if (c :: rest).length ≤ size then [⟨page, (c :: rest).take size⟩]
    else ⟨page, (c :: rest).take size⟩ ::
      chunkLoop size ov page fuel ((c :: rest).drop (size - ov))

/-- `chunkPageText(text, page, chunkSize, overlap)` from main.js: returns `[]`
for blank/whitespace-only input (`!text || text.trim().length === 0`), else
cuts overlapping windows of `effSize` characters advancing by
`effSize - effOverlap`. -/
def chunkPageText (text : List Char) (page : Nat) (chunkSize overlap : Int) :
    List PChunk :=
  if text.all isJsSpace then []
  else chunkLoop (effSize chunkSize) (effOverlap chunkSize overlap) page
    text.length text

/-- Concatenation of the produced windows after removing the overlapped
`ov`-character head of every window after the first (the reconstruction used
by the round-trip property in spec §8). -/
def reconstruct (ov : Nat) : List PChunk → List Char
  | [] => []
  | c :: cs => c.text ++ (cs.map (fun x => x.text.drop ov)).flatten

example : chunkPageText "".toList 1 1200 200 = [] := by decide
example : chunkPageText "  ".toList 1 1200 200 = [] := by decide
example : effSize 1200 = 1200 ∧ effOverlap 1200 200 = 200 := by decide
example : effSize 100 = 200 ∧ effOverlap 100 900 = 160 := by decide
example : effOverlap 1200 (-5) = 0 := by decide

lemma effSize_ge : ∀ chunkSize : Int, 200 ≤ effSize chunkSize := by
  intro s
  unfold effSize
  rcases le_total 200 s with h | h
  · rw [max_eq_right h]; omega
  · rw [max_eq_left h]; decide

lemma effOverlap_le : ∀ chunkSize overlap : Int,
    effOverlap chunkSize overlap ≤ 4 * effSize chunkSize / 5 := by
  intro s o
  unfold effOverlap
  rcases le_total o ((4 * effSize s / 5 : Nat) : Int) with h | h
  · rw [min_eq_left h]
    rcases le_total 0 o with h0 | h0
    · rw [max_eq_right h0]; omega
    · rw [max_eq_left h0]; omega
  · rw [min_eq_right h, max_eq_right (by positivity)]
    omega

lemma effOverlap_lt_effSize : ∀ chunkSize overlap : Int,
    effOverlap chunkSize overlap < effSize chunkSize := by
  intro s o
  have h1 := effOverlap_le s o
  have h2 := effSize_ge s
  have h3 : 4 * effSize s / 5 < effSize s := by
    rw [Nat.div_lt_iff_lt_mul (by omega)]
    omega
  omega

lemma chunkLoop_cons (size ov page fuel : Nat) (c : Char) (rest : List Char)
    (hov : ov < size) :
    chunkLoop size ov page (fuel + 1) (c :: rest) =
      if (c :: rest).length ≤ size then [⟨page, (c :: rest).take size⟩]
      else ⟨page, (c :: rest).take size⟩ ::
        chunkLoop size ov page fuel ((c :: rest).drop (size - ov)) := by
  rw [chunkLoop]
  rw [if_neg (by omega : ¬ size - ov = 0)]

lemma chunkLoop_head_cons (size ov page fuel : Nat) (hov : ov < size)
    (c : Char) (rest : List Char) (hlen : (c :: rest).length ≤ fuel) :
    ∃ tl, chunkLoop size ov page fuel (c :: rest) =
      ⟨page, (c :: rest).take size⟩ :: tl := by
  match fuel, hlen with
  | fuel + 1, hlen =>
    rw [chunkLoop_cons size ov page fuel c rest hov]
    split
    · exact ⟨[], rfl⟩
    · exact ⟨_, rfl⟩

lemma chunkLoop_reconstruct (size ov page : Nat) (hov : ov < size) :
    ∀ n (rem : List Char), rem.length ≤ n → rem ≠ [] →
      reconstruct ov (chunkLoop size ov page n rem) = rem := by
  intro n
  induction n with
  | zero =>
    intro rem h hne
    match rem with
    | c :: rest => simp at h
  | succ n ih =>
    intro rem hlen hne
    match rem with
    | c :: rest =>
      rw [chunkLoop_cons size ov page n c rest hov]
      by_cases hsz : (c :: rest).length ≤ size
      · rw [if_pos hsz]
        show (c :: rest).take size ++ _ = _
        simp [List.take_of_length_le hsz]
      · rw [if_neg hsz]
        have hlen' : ((c :: rest).drop (size - ov)).length
            = rest.length + 1 - (size - ov) := by
          simp [List.length_drop]
        have hlen2 : ((c :: rest).drop (size - ov)).length ≤ n := by
          rw [hlen']
          simp only [List.length_cons] at hlen
          omega
        have hpos : 0 < ((c :: rest).drop (size - ov)).length := by
          rw [hlen']
          simp only [List.length_cons] at hsz
          omega
        have hne' : (c :: rest).drop (size - ov) ≠ [] := by
          intro hcon
          rw [hcon] at hpos
          simp at hpos
        have hrec := ih ((c :: rest).drop (size - ov)) hlen2 hne'
        obtain ⟨c', rest', hrem2⟩ := List.exists_cons_of_ne_nil hne'
        obtain ⟨tl, hL⟩ := chunkLoop_head_cons size ov page n hov c' rest'
          (by rw [← hrem2]; exact hlen2)
        rw [hrem2] at hrec ⊢
        rw [hL] at hrec ⊢
        have hlen'' : ov < (c' :: rest').length := by
          have := hrem2 ▸ hlen'
          simp only [List.length_cons] at hsz
          omega
        have hrec' : ((c' :: rest').take size) ++
            (tl.map (fun x => x.text.drop ov)).flatten = c' :: rest' := hrec
        have hdrop : (((c' :: rest').take size) ++
              (tl.map (fun x => x.text.drop ov)).flatten).drop ov
            = ((c' :: rest').take size).drop ov ++
              (tl.map (fun x => x.text.drop ov)).flatten := by
          refine List.drop_append_of_le_length ?_
          simp only [List.length_take]
          omega
        rw [hrec'] at hdrop
        show (c :: rest).take size ++
          (((⟨page, (c' :: rest').take size⟩ : PChunk) :: tl).map
            (fun x => x.text.drop ov)).flatten = c :: rest
        simp only [List.map_cons, List.flatten_cons]
        rw [← hdrop, ← hrem2, List.drop_drop]
        have hsum : size - ov + ov = size := by omega
        rw [hsum, List.take_append_drop]

lemma chunkLoop_get? (size ov page : Nat) (hov : ov < size) :
    ∀ n (rem : List Char), rem.length ≤ n →
      ∀ (i : Nat) (pc : PChunk), (chunkLoop size ov page n rem)[i]? = some pc →
        pc = ⟨page, (rem.drop (i * (size - ov))).take size⟩ := by
  intro n
  induction n with
  | zero =>
    intro rem hlen i pc hpc
    match rem with
    | [] => rw [chunkLoop] at hpc; simp at hpc
    | c :: rest => simp at hlen
  | succ n ih =>
    intro rem hlen i pc hpc
    match rem with
    | [] => rw [chunkLoop] at hpc; simp at hpc
    | c :: rest =>
      rw [chunkLoop_cons size ov page n c rest hov] at hpc
      by_cases hsz : (c :: rest).length ≤ size
      · rw [if_pos hsz] at hpc
        match i with
        | 0 =>
          simp only [List.getElem?_cons_zero, Option.some.injEq] at hpc
          simp [← hpc]
        | i + 1 => simp at hpc
      · rw [if_neg hsz] at hpc
        match i with
        | 0 =>
          simp only [List.getElem?_cons_zero, Option.some.injEq] at hpc
          simp [← hpc]
        | i + 1 =>
          simp only [List.getElem?_cons_succ] at hpc
          have hlen2 : ((c :: rest).drop (size - ov)).length ≤ n := by
            simp only [List.length_drop, List.length_cons]
            simp only [List.length_cons] at hlen
            omega
          rw [ih _ hlen2 i pc hpc, List.drop_drop]
          have : size - ov + i * (size - ov) = (i + 1) * (size - ov) := by ring
          rw [this]

lemma chunkLoop_mem (size ov page : Nat) (hov : ov < size) :
    ∀ n (rem : List Char), rem.length ≤ n →
      ∀ pc ∈ chunkLoop size ov page n rem,
        pc.page = page ∧ pc.text.length ≤ size ∧ pc.text ≠ [] := by
  intro n
  induction n with
  | zero =>
    intro rem hlen pc hpc
    match rem with
    | [] => rw [chunkLoop] at hpc; simp at hpc
    | c :: rest => simp at hlen
  | succ n ih =>
    intro rem hlen pc hpc
    match rem with
    | [] => rw [chunkLoop] at hpc; simp at hpc
    | c :: rest =>
      rw [chunkLoop_cons size ov page n c rest hov] at hpc
      have hdhead : ∀ pc', pc' = (⟨page, (c :: rest).take size⟩ : PChunk) →
          pc'.page = page ∧ pc'.text.length ≤ size ∧ pc'.text ≠ [] := by
        intro pc' hpc'
        subst hpc'
        refine ⟨rfl, by simp, ?_⟩
        have hs : size ≠ 0 := by omega
        match size, hs with
        | size + 1, _ => simp
      by_cases hsz : (c :: rest).length ≤ size
      · rw [if_pos hsz] at hpc
        simp only [List.mem_singleton] at hpc
        exact hdhead pc hpc
      · rw [if_neg hsz] at hpc
        simp only [List.mem_cons] at hpc
        rcases hpc with hpc | hpc
        · exact hdhead pc hpc
        · refine ih ((c :: rest).drop (size - ov)) ?_ pc hpc
          simp only [List.length_drop, List.length_cons]
          simp only [List.length_cons] at hlen
          omega

lemma chunkLoop_inner_full (size ov page : Nat) (hov : ov < size) :
    ∀ n (rem : List Char), rem.length ≤ n →
      ∀ i pc, i + 1 < (chunkLoop size ov page n rem).length →
        (chunkLoop size ov page n rem)[i]? = some pc →
        pc.text.length = size := by
  intro n
  induction n with
  | zero =>
    intro rem hlen i pc h hpc
    match rem with
    | [] => rw [chunkLoop] at hpc; simp at hpc
    | c :: rest => simp at hlen
  | succ n ih =>
    intro rem hlen i pc h hpc
    match rem with
    | [] => rw [chunkLoop] at hpc; simp at hpc
    | c :: rest =>
      rw [chunkLoop_cons size ov page n c rest hov] at h hpc
      by_cases hsz : (c :: rest).length ≤ size
      · rw [if_pos hsz] at h
        simp at h
      · rw [if_neg hsz] at h hpc
        match i with
        | 0 =>
          simp only [List.getElem?_cons_zero, Option.some.injEq] at hpc
          rw [← hpc]
          simp only [List.length_take, List.length_cons]
          simp only [List.length_cons] at hsz
          omega
        | i + 1 =>
          simp only [List.getElem?_cons_succ] at hpc
          simp only [List.length_cons, Nat.add_lt_add_iff_right] at h
          have hlen2 : ((c :: rest).drop (size - ov)).length ≤ n := by
            simp only [List.length_drop, List.length_cons]
            simp only [List.length_cons] at hlen
            omega
          exact ih _ hlen2 i pc h hpc

/-- C5: for every input, `chunkPageText` clamps to effective size
`max(200, size)` and effective overlap `max(0, min(overlap, ⌊0.8·size⌋))`;
every returned chunk is nonempty with length at most the effective size,
every chunk but the last has exactly the effective size, and blank or
whitespace-only text yields the empty sequence. -/
theorem C5_chunk_bounds :
    ∀ (text : List Char) (page : Nat) (chunkSize overlap : Int),
      (∀ pc ∈ chunkPageText text page chunkSize overlap,
          pc.text.length ≤ effSize chunkSize ∧ pc.text ≠ []) ∧
      (∀ i pc, i + 1 < (chunkPageText text page chunkSize overlap).length →
          (chunkPageText text page chunkSize overlap)[i]? = some pc →
          pc.text.length = effSize chunkSize) ∧
      (text.all isJsSpace = true → chunkPageText text page chunkSize overlap = []) ∧
      200 ≤ effSize chunkSize ∧
      effOverlap chunkSize overlap ≤ 4 * effSize chunkSize / 5 ∧
      (0 ≤ overlap → overlap ≤ ((4 * effSize chunkSize / 5 : Nat) : Int) →
          (effOverlap chunkSize overlap : Int) = overlap) := by
  intro text page s o
  have hov := effOverlap_lt_effSize s o
  refine ⟨?_, ?_, ?_, effSize_ge s, effOverlap_le s o, ?_⟩
  · intro pc hpc
    unfold chunkPageText at hpc
    split at hpc
    · simp at hpc
    · exact (chunkLoop_mem _ _ page hov text.length text le_rfl pc hpc).2
  · intro i pc h hpc
    unfold chunkPageText at h hpc
    by_cases hsp : text.all isJsSpace = true
    · rw [if_pos hsp] at h
      simp at h
    · rw [if_neg hsp] at h hpc
      exact chunkLoop_inner_full _ _ page hov text.length text le_rfl i pc h hpc
  · intro hsp
    unfold chunkPageText
    rw [if_pos hsp]
  · intro h0 hle
    unfold effOverlap
    rw [min_eq_left hle, max_eq_right h0]
    exact Int.toNat_of_nonneg h0

/-- C5 witness: blank input yields no chunks, and an in-range overlap is kept
as is. -/
theorem C5_chunk_bounds_witness :
    (" ".toList.all isJsSpace = true) ∧
    chunkPageText " ".toList 3 1200 200 = [] ∧
    ((0 : Int) ≤ 200 ∧ (200 : Int) ≤ ((4 * effSize 1200 / 5 : Nat) : Int)) ∧
    (effOverlap 1200 200 : Int) = 200 :=
  ⟨by decide, (C5_chunk_bounds " ".toList 3 1200 200).2.2.1 (by decide),
   ⟨by decide, by decide⟩,
   (C5_chunk_bounds " ".toList 3 1200 200).2.2.2.2.2 (by decide) (by decide)⟩

/-- C4 counterexample: the claim quantifies over every text, but for a
whitespace-only text the chunker returns the empty sequence, whose
reconstruction is empty and differs from the text. -/
theorem C4_counterexample :
    reconstruct (effOverlap 1200 200) (chunkPageText [' '] 1 1200 200) ≠ [' '] := by
  decide

/-- C4 (amended): for every text that is empty or contains at least one
non-whitespace character, removing the overlapped `effOverlap`-prefix of every
window after the first and concatenating reconstructs the text exactly; and
(for all inputs) the i-th window starts at `i * (effSize - effOverlap)`, i.e.
windows advance by effective size minus effective overlap. -/
theorem C4_roundTrip_amended :
    ∀ (text : List Char) (page : Nat) (chunkSize overlap : Int),
      (text = [] ∨ text.all isJsSpace = false →
        reconstruct (effOverlap chunkSize overlap)
          (chunkPageText text page chunkSize overlap) = text) ∧
      (∀ i pc, (chunkPageText text page chunkSize overlap)[i]? = some pc →
        pc.text =
          (text.drop (i * (effSize chunkSize - effOverlap chunkSize overlap))).take
            (effSize chunkSize)) := by
  intro text page s o
  have hov := effOverlap_lt_effSize s o
  constructor
  · rintro (rfl | hsp)
    · rfl
    · have hne : text ≠ [] := by
        intro hcon
        rw [hcon] at hsp
        simp at hsp
      unfold chunkPageText
      rw [if_neg (by simp [hsp])]
      exact chunkLoop_reconstruct _ _ page hov text.length text le_rfl hne
  · intro i pc hpc
    unfold chunkPageText at hpc
    by_cases hsp : text.all isJsSpace = true
    · rw [if_pos hsp] at hpc
      simp at hpc
    · rw [if_neg hsp] at hpc
      rw [chunkLoop_get? _ _ page hov text.length text le_rfl i pc hpc]

/-- C4 witness: a concrete non-blank text round-trips. -/
theorem C4_roundTrip_witness :
    ("hello world".toList.all isJsSpace = false) ∧
    reconstruct (effOverlap 1200 200) (chunkPageText "hello world".toList 1 1200 200)
      = "hello world".toList :=
  ⟨by decide, (C4_roundTrip_amended "hello world".toList 1 1200 200).1 (by decide)⟩

/-! ## Data model (the in-memory `workspace` state of main.js) -/

/-- A chunk record `{id, page, text, embedding, norm}` as created during
extraction (main.js line 249).  The source stores `id` as the decimal string
of a global counter; the counter value is kept as a `Nat` here and rendered
with `Nat.repr` where the search handler builds hit ids.  Scalars are `ℚ`. -/
structure Chunk where
  id : Nat
  page : Nat
  text : List Char
  embedding : Option (List ℚ)
  norm : ℚ
  deriving DecidableEq, Repr

/-- A document record `{id, path, pages, chunks}` (main.js line 252); `id`
is the file path, which is also the `docs` map key. -/
structure Doc where
  id : String
  path : String
  pages : Nat
  chunks : List Chunk
  deriving DecidableEq, Repr

/-- The embedding-relevant settings fields of `workspace.settings`. -/
structure Settings where
  embeddingHost : String
  embeddingModel : String
  apiKey : String
  chunkSize : Int
  chunkOverlap : Int
  deriving DecidableEq, Repr

/-- One included file together with the data the external collaborators
produce for it: a `.pdf` with the page texts the page extractor returns, a
`.txt`/`.md` file with its content (read whole, as a single page), or a
file with any other extension (skipped by the extract loop). -/
inductive FileEntry where
  | pdf (path : String) (pages : List (List Char))
  | txt (path : String) (content : List Char)
  | other (path : String)
  deriving DecidableEq, Repr

def FileEntry.path : FileEntry → String
  | .pdf p _ => p
  | .txt p _ => p
  | .other p => p

/-- Progress/terminal events sent over the `preprocess-*` channels. -/
inductive Event where
  | extractProg (current total : Nat) (file : Option String)
  | embedProg (current total : Nat)
  | completeEv (docCount chunkCount : Nat)
  | cancelledEv
  | errorEv (msg : String)
  deriving DecidableEq, Repr

/-- Result of the `preprocess` handler promise: a summary, the rethrown
cancellation error, or another error message. -/
inductive PreOutcome where
  | ok (docCount chunkCount : Nat)
  | cancelled
  | err (msg : String)
  deriving DecidableEq, Repr

/-- The shared cancellation flag, embedded as the index of the first
cancellation check at which it reads true (`none` = never set).  Checks are
numbered in execution order: check `i` before file `i` in the extract loop,
then check `files.length + k` before batch `k` in the embed loop; once the
flag is set it stays set, which this encoding captures. -/
def cancelReads (cancelFrom : Option Nat) (check : Nat) : Bool :=
  match cancelFrom with
  | none => false
  | some t => decide (t ≤ check)

/-- `chunks.push({ id: globalChunkId++, page, text, embedding: null,
norm: 0 })` over one page's windows. -/
def assignIds : List PChunk → Nat → List Chunk
  | [], _ => []
  | pc :: pcs, gid => ⟨gid, pc.page, pc.text, none, 0⟩ :: assignIds pcs (gid + 1)

/-- `pages.forEach((t, i) => ...)` (main.js 245-251): chunk every page with
1-based page numbers, assigning consecutive global chunk ids. -/
def chunksOfPages (cs : Settings) : List (List Char) → Nat → Nat → List Chunk × Nat
  | [], _, gid => ([], gid)
  | t :: ts, pageNo, gid =>
    let pcs := chunkPageText t pageNo cs.chunkSize cs.chunkOverlap
    (assignIds pcs gid ++ (chunksOfPages cs ts (pageNo + 1) (gid + pcs.length)).1,
     (chunksOfPages cs ts (pageNo + 1) (gid + pcs.length)).2)

/-- `workspace.docs.set(id, doc)`: JS `Map.set` replaces the value of an
existing key in its original position and appends a new key. -/
def setDoc (docs : List Doc) (d : Doc) : List Doc :=
  if docs.any (fun x => x.id == d.id) then
    docs.map (fun x => if x.id == d.id then d else x)
  else docs ++ [d]

/-- The per-file state update of the extract loop: an unsupported extension
changes nothing; a `.pdf` or `.txt`/`.md` file is chunked and stored. -/
def extractFileState (cs : Settings) (gid : Nat) (docs : List Doc) :
    FileEntry → Nat × List Doc
  | .other _ => (gid, docs)
  | .pdf p pages =>
    ((chunksOfPages cs pages 1 gid).2,
     setDoc docs ⟨p, p, pages.length, (chunksOfPages cs pages 1 gid).1⟩)
  | .txt p content =>
    ((chunksOfPages cs [content] 1 gid).2,
     setDoc docs ⟨p, p, 1, (chunksOfPages cs [content] 1 gid).1⟩)

inductive ExtractOut where
  | cancelled (evs : List Event)
  | done (docs : List Doc) (evs : List Event) (gid : Nat)
  deriving DecidableEq, Repr

/-- The `for (const filePath of workspace.includeFiles)` extract loop
(main.js 229-255): cancellation is checked before each file, every file
(also a skipped one) advances progress with an `extract` event, and `.pdf`
and `.txt`/`.md` files add a document record. -/
def extractLoop (cs : Settings) (cancelFrom : Option Nat) (total : Nat) :
    List FileEntry → Nat → Nat → List Doc → ExtractOut
  | [], _, gid, docs => .done docs [] gid
  | f :: fs, idx, gid, docs =>
    if cancelReads cancelFrom idx then .cancelled []
    else
      match extractLoop cs cancelFrom total fs (idx + 1)
          (extractFileState cs gid docs f).1 (extractFileState cs gid docs f).2 with
      | .cancelled evs =>
          .cancelled (Event.extractProg (idx + 1) total (some f.path) :: evs)
      | .done docs' evs gid' =>
          .done docs' (Event.extractProg (idx + 1) total (some f.path) :: evs) gid'

inductive EmbedOut where
  | cancelled (evs : List Event)
  | failed (msg : String) (embs : List (List ℚ)) (evs : List Event)
  | done (embs : List (List ℚ)) (evs : List Event)
  deriving DecidableEq, Repr

/-- The batched embed loop (main.js 265-279): cancellation is checked before
each batch of 64 inputs; `embedFn` is the `embedBatch` oracle (the ordered
vectors of one provider call, or the thrown error's message); vectors of
successful batches accumulate in order and an `embed` progress event follows
each batch.  As with `chunkLoop`, a fuel argument (any bound on the number of
remaining inputs, each batch consuming at least one) makes the recursion
structural. -/
def embedLoop (embedFn : List (List Char) → Except String (List (List ℚ)))
    (cancelFrom : Option Nat) (baseCheck total : Nat) :
    Nat → List (List Char) → Nat → Nat → EmbedOut
  | _, [], _, _ => .done [] []
  | 0, _ :: _, _, _ => .done [] []
  | fuel + 1, t :: ts, batchNo, processed =>
    if cancelReads cancelFrom (baseCheck + batchNo) then .cancelled []
    else
      match embedFn ((t :: ts).take 64) with
      | .error m => .failed m [] []
      | .ok embs =>
        match embedLoop embedFn cancelFrom baseCheck total fuel ((t :: ts).drop 64)
            (batchNo + 1) (processed + embs.length) with
        | .cancelled evs =>
            .cancelled (Event.embedProg (processed + embs.length) total :: evs)
        | .failed m embs2 evs =>
            .failed m (embs ++ embs2) (Event.embedProg (processed + embs.length) total :: evs)
        | .done embs2 evs =>
            .done (embs ++ embs2) (Event.embedProg (processed + embs.length) total :: evs)

/-- `c.embedding = embs[j]; c.norm = norm(c.embedding)` (main.js 272-277):
distribute the accumulated embeddings over the flattened chunk list in
order.  `nrm` is the scalar norm `a => Math.sqrt(dot(a, a))`; the ℚ-valued
pipeline is parametric in it (its real-valued definition is `norm` below,
used for the similarity claims). -/
def applyChunks (nrm : List ℚ → ℚ) : List Chunk → List (List ℚ) →
    List Chunk × List (List ℚ)
  | cks, [] => (cks, [])
  | [], es => ([], es)
  | ck :: cks, e :: es =>
    ({ ck with embedding := some e, norm := nrm e } :: (applyChunks nrm cks es).1,
     (applyChunks nrm cks es).2)

def applyDocs (nrm : List ℚ → ℚ) : List Doc → List (List ℚ) → List Doc
  | [], _ => []
  | d :: ds, es =>
    { d with chunks := (applyChunks nrm d.chunks es).1 } ::
      applyDocs nrm ds (applyChunks nrm d.chunks es).2

structure PreResult where
  docs : List Doc
  events : List Event
  outcome : PreOutcome
  deriving DecidableEq, Repr

/-- `allChunks`/`inputs` (main.js 258-262): every chunk text across all
documents, in document order then chunk-ordinal order. -/
def flatTexts (docs : List Doc) : List (List Char) :=
  ((docs.map Doc.chunks).flatten).map Chunk.text

/-- The body of the `preprocess` handler after its guards (main.js 221-302):
clear the document map, run the extract loop (one cancel check per file),
flatten all chunks in document order, run the embed loop (one cancel check
per batch), then emit the terminal event.  When a check detects
cancellation, the catch block clears all documents and emits
`preprocess-cancelled`; on a provider error it emits `preprocess-error` and
leaves the state accumulated so far. -/
def runPreprocess (files : List FileEntry) (cs : Settings)
    (embedFn : List (List Char) → Except String (List (List ℚ)))
    (nrm : List ℚ → ℚ) (cancelFrom : Option Nat) : PreResult :=
  match extractLoop cs cancelFrom files.length files 0 0 [] with
  | .cancelled evs =>
      ⟨[], Event.extractProg 0 files.length none :: (evs ++ [Event.cancelledEv]),
       .cancelled⟩
  | .done docs evs _ =>
    match embedLoop embedFn cancelFrom files.length (flatTexts docs).length
        (flatTexts docs).length (flatTexts docs) 0 0 with
    | .cancelled evs2 =>
        ⟨[], Event.extractProg 0 files.length none ::
          (evs ++ Event.embedProg 0 (flatTexts docs).length ::
            (evs2 ++ [Event.cancelledEv])), .cancelled⟩
    | .failed m embs evs2 =>
        ⟨applyDocs nrm docs embs,
         Event.extractProg 0 files.length none ::
          (evs ++ Event.embedProg 0 (flatTexts docs).length ::
            (evs2 ++ [Event.errorEv m])), .err m⟩
    | .done embs evs2 =>
        ⟨applyDocs nrm docs embs,
         Event.extractProg 0 files.length none ::
          (evs ++ Event.embedProg 0 (flatTexts docs).length ::
            (evs2 ++ [Event.completeEv (applyDocs nrm docs embs).length
              ((applyDocs nrm docs embs).map (fun d => d.chunks.length)).sum])),
         .ok (applyDocs nrm docs embs).length
           ((applyDocs nrm docs embs).map (fun d => d.chunks.length)).sum⟩

/-! ## Handler guards (`preprocess` entry, `preprocess-cancel`) -/

inductive PreErr where
  | workspaceNotConfigured
  | alreadyRunning
  | settingsIncomplete
  deriving DecidableEq, Repr

/-- The `currentPreprocess` token `{ cancelled, running }`. -/
structure RunTok where
  cancelled : Bool
  running : Bool
  deriving DecidableEq, Repr

/-- The guard sequence at the top of the `preprocess` handler (main.js
201-210): missing root/include list first, then an active run, then blank
embedding host/model.  `root = none` models `workspace.root = null`; a JS
empty string is also falsy, hence the `getD "" = ""` test. -/
def preprocessGuard (root : Option String) (includeFiles : List String)
    (tok : Option RunTok) (cs : Settings) : Option PreErr :=
  if root.getD "" = "" ∨ includeFiles.isEmpty then some .workspaceNotConfigured
  else if (tok.map RunTok.running).getD false then some .alreadyRunning
  else if cs.embeddingHost = "" ∨ cs.embeddingModel = "" then some .settingsIncomplete
  else none

/-- Fail-fast behaviour of the `preprocess` handler: when a guard fires the
handler throws before touching `currentPreprocess`, the document map or any
event channel; otherwise it installs a fresh running token (the run body
itself is `runPreprocess`). -/
def preprocessStart (root : Option String) (includeFiles : List String)
    (tok : Option RunTok) (cs : Settings) (docs : List Doc) :
    Except PreErr Unit × Option RunTok × List Doc :=
  match preprocessGuard root includeFiles tok cs with
  | some e => (.error e, tok, docs)
  | none => (.ok (), some ⟨false, true⟩, docs)

/-- The `preprocess-cancel` handler (main.js 305-312): sets the flag (and
aborts the in-flight call) and returns true only when a run is active;
otherwise it is a no-op returning false. -/
def preprocessCancel : Option RunTok → Bool × Option RunTok
  | some t =>
    if t.running then (true, some { t with cancelled := true })
    else (false, some t)
  | none => (false, none)

/-! ## Search (`search` handler, main.js 314-361) -/

/-- `dot(a, b)` (main.js 163-167) on ℚ scalars; the JS loop runs over
`a.length`, so this agrees whenever `b` is at least as long as `a` (the only
way the handler calls it). -/
def dotQ (a b : List ℚ) : ℚ := (List.zipWith (· * ·) a b).sum

structure Hit where
  id : String
  score : ℚ
  page : Nat
  text : List Char
  deriving DecidableEq, Repr

structure DocResult where
  docId : String
  hits : List Hit
  deriving DecidableEq, Repr

/-- The search precondition error ("전처리가 완료되지 않았습니다",
NotReady). -/
inductive SearchErr where
  | notReady
  deriving DecidableEq, Repr

deriving instance DecidableEq for Except

/-- Per-chunk similarity (main.js 330): `qNorm && c.norm ? dot(qEmb,
c.embedding) / (qNorm * c.norm) : 0`.  A JS number is truthy iff it is
nonzero (and not NaN; the stored norms are nonnegative reals); `none` models
the crash that dereferencing an absent embedding inside `dot` would raise. -/
def chunkScoreE (qEmb : List ℚ) (qNorm : ℚ) (c : Chunk) : Option ℚ :=
  if qNorm ≠ 0 ∧ c.norm ≠ 0 then
    c.embedding.map (fun e => dotQ qEmb e / (qNorm * c.norm))
  else some 0

/-- A search hit `{ id: doc.id + "::" + c.id, score, page, text }`. -/
def mkHit (docId : String) (c : Chunk) (s : ℚ) : Hit :=
  ⟨docId ++ "::" ++ Nat.repr c.id, s, c.page, c.text⟩

/-- Option-valued map over a list, propagating the first failure. -/
def optMapM (f : α → Option β) : List α → Option (List β)
  | [] => some []
  | x :: xs =>
    match f x with
    | none => none
    | some y =>
      match optMapM f xs with
      | none => none
      | some ys => some (y :: ys)

/-- The per-document `docResults` array (main.js 326-338), in chunk-ordinal
order. -/
def docHitList (qEmb : List ℚ) (qNorm : ℚ) (d : Doc) : Option (List Hit) :=
  optMapM (fun c => (chunkScoreE qEmb qNorm c).map (mkHit d.id c)) d.chunks

/-- Comparator of `docResults.sort((a, b) => b.score - a.score)`:
descending score; V8's `Array.prototype.sort` is stable, embedded as a
stable insertion sort. -/
def hitRel (a b : Hit) : Prop := b.score ≤ a.score

instance : DecidableRel hitRel :=
  fun a b => inferInstanceAs (Decidable (b.score ≤ a.score))

instance : IsTotal Hit hitRel := ⟨fun a b => le_total b.score a.score⟩

instance : IsTrans Hit hitRel := ⟨fun _ _ _ hab hbc => le_trans hbc hab⟩

/-- `b.hits[0]?.score || 0`: score of the first hit, 0 when there is none
(`|| 0` maps a 0 score to the same value). -/
def headScore (r : DocResult) : ℚ := ((r.hits.head?).map Hit.score).getD 0

/-- Comparator of the outer
`results.sort((a, b) => (b.hits[0]?.score || 0) - (a.hits[0]?.score || 0))`. -/
def outerRel (a b : DocResult) : Prop := headScore b ≤ headScore a

instance : DecidableRel outerRel :=
  fun a b => inferInstanceAs (Decidable (headScore b ≤ headScore a))

instance : IsTotal DocResult outerRel :=
  ⟨fun a b => le_total (headScore b) (headScore a)⟩

instance : IsTrans DocResult outerRel :=
  ⟨fun _ _ _ hab hbc => le_trans hbc hab⟩

/-- The `if (docResults.length > 0) resultsByDoc.set(...)` collection step
followed by building the `results` array (main.js 340-355): documents with
no chunks are skipped, each kept document holds the first `perDocN` hits of
its stably sorted score list. -/
def searchEntries (perDocN : Nat) (pairs : List (String × List Hit)) :
    List DocResult :=
  (pairs.filter (fun p => !p.2.isEmpty)).map
    (fun p => DocResult.mk p.1 ((List.insertionSort hitRel p.2).take perDocN))

/-- The dense scan of the `search` handler (main.js 323-360) given the query
embedding and its norm (the spec contract `search(queryVector, queryNorm,
perDocN)`): per document, score every chunk in ordinal order, sort stably by
descending score, keep the top `perDocN`, skip documents with no chunks;
finally sort the document list by its first hit's score, descending. -/
def searchCore (qEmb : List ℚ) (qNorm : ℚ) (perDocN : Nat) (docs : List Doc) :
    Option (List DocResult) :=
  (optMapM (fun d => (docHitList qEmb qNorm d).map (fun hs => (d.id, hs))) docs).map
    (fun pairs => List.insertionSort outerRel (searchEntries perDocN pairs))

/-- The `search` handler (main.js 314-361): the only precondition check is
`workspace.docs.size === 0`, which throws the NotReady error; afterwards the
query is embedded by one provider call (entering here as `qEmb` with norm
`qNorm`) and the scan runs. -/
def searchHandler (docs : List Doc) (qEmb : List ℚ) (qNorm : ℚ) (perDocN : Nat) :
    Except SearchErr (Option (List DocResult)) :=
  if docs.isEmpty then .error .notReady
  else .ok (searchCore qEmb qNorm perDocN docs)

/-! ## Helper lemmas about the loops -/

/-- Progress events, as opposed to the terminal
`complete`/`cancelled`/`error` events. -/
def Event.isProg : Event → Bool
  | .extractProg _ _ _ => true
  | .embedProg _ _ => true
  | _ => false

lemma count_cancelled_zero (evs : List Event)
    (h : ∀ e ∈ evs, e.isProg = true) : evs.count Event.cancelledEv = 0 := by
  rw [List.count_eq_zero]
  intro hmem
  have := h _ hmem
  simp [Event.isProg] at this

lemma error_not_mem (evs : List Event) (h : ∀ e ∈ evs, e.isProg = true)
    (m : String) : Event.errorEv m ∉ evs := by
  intro hmem
  have := h _ hmem
  simp [Event.isProg] at this

lemma extractLoop_events (cs : Settings) (cf : Option Nat) (total : Nat) :
    ∀ fs idx gid docs,
      (∀ evs, extractLoop cs cf total fs idx gid docs = .cancelled evs →
        ∀ e ∈ evs, e.isProg = true) ∧
      (∀ docs' evs gid', extractLoop cs cf total fs idx gid docs = .done docs' evs gid' →
        ∀ e ∈ evs, e.isProg = true) := by
  intro fs
  induction fs with
  | nil =>
    intro idx gid docs
    constructor
    · intro evs hEq
      rw [extractLoop] at hEq
      cases hEq
    · intro docs' evs gid' hEq
      rw [extractLoop] at hEq
      cases hEq
      intro e he
      cases he
  | cons f fs ih =>
    intro idx gid docs
    constructor
    · intro evs hEq
      rw [extractLoop] at hEq
      split at hEq
      · cases hEq
        intro e he
        cases he
      · split at hEq
        · rename_i evs1 hR
          cases hEq
          intro e he
          rcases List.mem_cons.mp he with he | he
          · rw [he]; rfl
          · exact ((ih (idx + 1) _ _).1 evs1 hR) e he
        · cases hEq
    · intro docs' evs gid' hEq
      rw [extractLoop] at hEq
      split at hEq
      · cases hEq
      · split at hEq
        · cases hEq
        · cases hEq
          intro e he
          rcases List.mem_cons.mp he with he | he
          · rw [he]; rfl
          · exact ((ih (idx + 1) _ _).2 _ _ _ (by assumption)) e he

lemma embedLoop_events (embedFn : List (List Char) → Except String (List (List ℚ)))
    (cf : Option Nat) (baseCheck total : Nat) :
    ∀ n (rem : List (List Char)), rem.length ≤ n → ∀ batchNo processed,
      (∀ evs, embedLoop embedFn cf baseCheck total n rem batchNo processed = .cancelled evs →
        ∀ e ∈ evs, e.isProg = true) ∧
      (∀ m embs evs,
        embedLoop embedFn cf baseCheck total n rem batchNo processed = .failed m embs evs →
        ∀ e ∈ evs, e.isProg = true) ∧
      (∀ embs evs,
        embedLoop embedFn cf baseCheck total n rem batchNo processed = .done embs evs →
        ∀ e ∈ evs, e.isProg = true) := by
  intro n
  induction n with
  | zero =>
    intro rem hlen batchNo processed
    match rem with
    | [] =>
      refine ⟨?_, ?_, ?_⟩
      · intro evs hEq; rw [embedLoop] at hEq; cases hEq
      · intro m embs evs hEq; rw [embedLoop] at hEq; cases hEq
      · intro embs evs hEq
        rw [embedLoop] at hEq
        cases hEq
        intro e he
        cases he
    | t :: ts => simp at hlen
  | succ n ih =>
    intro rem hlen batchNo processed
    match rem with
    | [] =>
      refine ⟨?_, ?_, ?_⟩
      · intro evs hEq; rw [embedLoop] at hEq; cases hEq
      · intro m embs evs hEq; rw [embedLoop] at hEq; cases hEq
      · intro embs evs hEq
        rw [embedLoop] at hEq
        cases hEq
        intro e he
        cases he
    | t :: ts =>
      have hlen2 : ((t :: ts).drop 64).length ≤ n := by
        simp only [List.length_drop, List.length_cons]
        simp only [List.length_cons] at hlen
        omega
      have ih2 := ih ((t :: ts).drop 64) hlen2
      refine ⟨?_, ?_, ?_⟩
      · intro evs hEq
        rw [embedLoop] at hEq
        split at hEq
        · cases hEq
          intro e he
          cases he
        · split at hEq
          · cases hEq
          · split at hEq
            · rename_i evs1 hR
              cases hEq
              intro e he
              rcases List.mem_cons.mp he with he | he
              · rw [he]; rfl
              · exact ((ih2 _ _).1 evs1 hR) e he
            · cases hEq
            · cases hEq
      · intro m embs evs hEq
        rw [embedLoop] at hEq
        split at hEq
        · cases hEq
        · split at hEq
          · cases hEq
            intro e he
            cases he
          · split at hEq
            · cases hEq
            · cases hEq
              intro e he
              rcases List.mem_cons.mp he with he | he
              · rw [he]; rfl
              · exact ((ih2 _ _).2.1 _ _ _ (by assumption)) e he
            · cases hEq
      · intro embs evs hEq
        rw [embedLoop] at hEq
        split at hEq
        · cases hEq
        · split at hEq
          · cases hEq
          · split at hEq
            · cases hEq
            · cases hEq
            · cases hEq
              intro e he
              rcases List.mem_cons.mp he with he | he
              · rw [he]; rfl
              · exact ((ih2 _ _).2.2 _ _ (by assumption)) e he

/-! ## Case equations for `runPreprocess` -/

lemma runPreprocess_extract_cancelled {files : List FileEntry} {cs : Settings}
    {embedFn : List (List Char) → Except String (List (List ℚ))}
    {nrm : List ℚ → ℚ} {cf : Option Nat} {evs : List Event}
    (hE : extractLoop cs cf files.length files 0 0 [] = .cancelled evs) :
    runPreprocess files cs embedFn nrm cf =
      ⟨[], Event.extractProg 0 files.length none :: (evs ++ [Event.cancelledEv]),
       .cancelled⟩ := by
  simp only [runPreprocess]
  rw [hE]

lemma runPreprocess_embed_cancelled {files : List FileEntry} {cs : Settings}
    {embedFn : List (List Char) → Except String (List (List ℚ))}
    {nrm : List ℚ → ℚ} {cf : Option Nat} {docs : List Doc} {evs : List Event}
    {gid : Nat} {evs2 : List Event}
    (hE : extractLoop cs cf files.length files 0 0 [] = .done docs evs gid)
    (hB : embedLoop embedFn cf files.length (flatTexts docs).length
        (flatTexts docs).length (flatTexts docs) 0 0 = .cancelled evs2) :
    runPreprocess files cs embedFn nrm cf =
      ⟨[], Event.extractProg 0 files.length none ::
        (evs ++ Event.embedProg 0 (flatTexts docs).length ::
          (evs2 ++ [Event.cancelledEv])), .cancelled⟩ := by
  simp only [runPreprocess, hE]
  rw [hB]

lemma runPreprocess_embed_failed {files : List FileEntry} {cs : Settings}
    {embedFn : List (List Char) → Except String (List (List ℚ))}
    {nrm : List ℚ → ℚ} {cf : Option Nat} {docs : List Doc} {evs : List Event}
    {gid : Nat} {m : String} {embs : List (List ℚ)} {evs2 : List Event}
    (hE : extractLoop cs cf files.length files 0 0 [] = .done docs evs gid)
    (hB : embedLoop embedFn cf files.length (flatTexts docs).length
        (flatTexts docs).length (flatTexts docs) 0 0 = .failed m embs evs2) :
    runPreprocess files cs embedFn nrm cf =
      ⟨applyDocs nrm docs embs,
       Event.extractProg 0 files.length none ::
        (evs ++ Event.embedProg 0 (flatTexts docs).length ::
          (evs2 ++ [Event.errorEv m])), .err m⟩ := by
  simp only [runPreprocess, hE]
  rw [hB]

lemma runPreprocess_embed_done {files : List FileEntry} {cs : Settings}
    {embedFn : List (List Char) → Except String (List (List ℚ))}
    {nrm : List ℚ → ℚ} {cf : Option Nat} {docs : List Doc} {evs : List Event}
    {gid : Nat} {embs : List (List ℚ)} {evs2 : List Event}
    (hE : extractLoop cs cf files.length files 0 0 [] = .done docs evs gid)
    (hB : embedLoop embedFn cf files.length (flatTexts docs).length
        (flatTexts docs).length (flatTexts docs) 0 0 = .done embs evs2) :
    runPreprocess files cs embedFn nrm cf =
      ⟨applyDocs nrm docs embs,
       Event.extractProg 0 files.length none ::
        (evs ++ Event.embedProg 0 (flatTexts docs).length ::
          (evs2 ++ [Event.completeEv (applyDocs nrm docs embs).length
            ((applyDocs nrm docs embs).map (fun d => d.chunks.length)).sum])),
       .ok (applyDocs nrm docs embs).length
         ((applyDocs nrm docs embs).map (fun d => d.chunks.length)).sum⟩ := by
  simp only [runPreprocess, hE]
  rw [hB]

/-! ## Claim theorems: cancellation, guards, NotReady -/

/-- C2: whenever a preprocess run's outcome is the cancellation outcome —
that is, one of the cancellation checks (before a file in the extract phase
or before a batch in the embed phase) detected the flag — the accumulated
Document/Chunk state is fully discarded (zero documents remain), exactly one
`cancelled` event fires, and no `error` event is emitted. -/
theorem C2_cancel_rollback :
    ∀ files cs embedFn nrm cancelFrom,
      (runPreprocess files cs embedFn nrm cancelFrom).outcome = .cancelled →
      (runPreprocess files cs embedFn nrm cancelFrom).docs = [] ∧
      (runPreprocess files cs embedFn nrm cancelFrom).events.count .cancelledEv = 1 ∧
      ∀ m, Event.errorEv m ∉ (runPreprocess files cs embedFn nrm cancelFrom).events := by
  intro files cs embedFn nrm cancelFrom
  cases hE : extractLoop cs cancelFrom files.length files 0 0 [] with
  | cancelled evs =>
    intro _
    have hprog := (extractLoop_events cs cancelFrom files.length files 0 0 []).1 evs hE
    rw [runPreprocess_extract_cancelled hE]
    refine ⟨rfl, ?_, ?_⟩
    · show (Event.extractProg 0 files.length none ::
        (evs ++ [Event.cancelledEv])).count Event.cancelledEv = 1
      rw [List.count_cons, List.count_append, count_cancelled_zero evs hprog]
      rfl
    · intro m hmem
      rcases List.mem_cons.mp hmem with h | h
      · cases h
      · rcases List.mem_append.mp h with h | h
        · exact error_not_mem evs hprog m h
        · simp at h
  | done docs evs gid =>
    have hprog := (extractLoop_events cs cancelFrom files.length files 0 0 []).2
      docs evs gid hE
    cases hB : embedLoop embedFn cancelFrom files.length (flatTexts docs).length
        (flatTexts docs).length (flatTexts docs) 0 0 with
    | cancelled evs2 =>
      intro _
      have hprog2 := (embedLoop_events embedFn cancelFrom files.length
        (flatTexts docs).length (flatTexts docs).length
        (flatTexts docs) le_rfl 0 0).1 evs2 hB
      rw [runPreprocess_embed_cancelled hE hB]
      refine ⟨rfl, ?_, ?_⟩
      · show (Event.extractProg 0 files.length none ::
          (evs ++ Event.embedProg 0 (flatTexts docs).length ::
            (evs2 ++ [Event.cancelledEv]))).count Event.cancelledEv = 1
        rw [List.count_cons, List.count_append, count_cancelled_zero evs hprog,
          List.count_cons, List.count_append, count_cancelled_zero evs2 hprog2]
        rfl
      · intro m hmem
        rcases List.mem_cons.mp hmem with h | h
        · cases h
        · rcases List.mem_append.mp h with h | h
          · exact error_not_mem evs hprog m h
          · rcases List.mem_cons.mp h with h | h
            · cases h
            · rcases List.mem_append.mp h with h | h
              · exact error_not_mem evs2 hprog2 m h
              · simp at h
    | failed m0 embs evs2 =>
      intro hcon
      rw [runPreprocess_embed_failed hE hB] at hcon
      cases hcon
    | done embs evs2 =>
      intro hcon
      rw [runPreprocess_embed_done hE hB] at hcon
      cases hcon

/-- C2 witness: three text files, flag set at check 1, i.e. cancellation is
detected right after the first file's extraction; zero documents remain and
the event trail holds exactly one `cancelled` and no `error` event. -/
theorem C2_cancel_rollback_witness :
    (runPreprocess
        [FileEntry.txt "a" "x".toList, FileEntry.txt "b" "y".toList,
         FileEntry.txt "c" "z".toList]
        ⟨"h", "m", "", 1200, 200⟩ (fun _ => Except.error "e") (fun _ => 0)
        (some 1)).outcome = PreOutcome.cancelled ∧
    (runPreprocess
        [FileEntry.txt "a" "x".toList, FileEntry.txt "b" "y".toList,
         FileEntry.txt "c" "z".toList]
        ⟨"h", "m", "", 1200, 200⟩ (fun _ => Except.error "e") (fun _ => 0)
        (some 1)).docs = [] :=
  ⟨by decide,
   (C2_cancel_rollback
      [FileEntry.txt "a" "x".toList, FileEntry.txt "b" "y".toList,
       FileEntry.txt "c" "z".toList]
      ⟨"h", "m", "", 1200, 200⟩ (fun _ => Except.error "e") (fun _ => 0)
      (some 1) (by decide)).1⟩

/-- C3: while a run is active (`currentPreprocess.running`), a second
`preprocess` call on a configured workspace fails fast with AlreadyRunning
and leaves the token and document state untouched; and `preprocess-cancel`
returns false and changes nothing whenever no run is active. -/
theorem C3_single_flight :
    ∀ (r : String) (includeFiles : List String) (t : RunTok) (cs : Settings)
      (docs : List Doc),
      r ≠ "" → includeFiles ≠ [] → t.running = true →
      (preprocessStart (some r) includeFiles (some t) cs docs =
        (.error .alreadyRunning, some t, docs)) ∧
      (∀ tok : Option RunTok, (tok.map RunTok.running).getD false = false →
        preprocessCancel tok = (false, tok)) := by
  intro r includeFiles t cs docs hr hfiles hrun
  constructor
  · unfold preprocessStart preprocessGuard
    rw [if_neg, if_pos]
    · simp [hrun]
    · intro hcon
      rcases hcon with h | h
      · exact hr (by simpa using h)
      · exact hfiles (List.isEmpty_iff.mp h)
  · intro tok htok
    match tok with
    | none => rfl
    | some t' =>
      have ht' : t'.running = false := by simpa using htok
      simp [preprocessCancel, ht']

/-- C3 witness: a running token blocks a second start; cancel on an idle
token and on no token returns false. -/
theorem C3_single_flight_witness :
    preprocessStart (some "r") ["a"] (some ⟨false, true⟩)
        ⟨"h", "m", "", 1200, 200⟩ [] =
      (.error .alreadyRunning, some ⟨false, true⟩, []) ∧
    preprocessCancel (some ⟨false, false⟩) = (false, some ⟨false, false⟩) ∧
    preprocessCancel none = (false, none) :=
  ⟨(C3_single_flight "r" ["a"] ⟨false, true⟩ ⟨"h", "m", "", 1200, 200⟩ []
      (by decide) (by decide) (by decide)).1,
   (C3_single_flight "r" ["a"] ⟨false, true⟩ ⟨"h", "m", "", 1200, 200⟩ []
      (by decide) (by decide) (by decide)).2 (some ⟨false, false⟩) (by decide),
   (C3_single_flight "r" ["a"] ⟨false, true⟩ ⟨"h", "m", "", 1200, 200⟩ []
      (by decide) (by decide) (by decide)).2 none (by decide)⟩

/-- C1 (amended): `search` fails with NotReady exactly when the document map
is empty — not when documents merely lack embeddings.  A workspace holding
documents without any embedding does not trigger NotReady (its chunks score
0 instead, see the C10 theorem). -/
theorem C1_notReady_iff_no_docs :
    ∀ (docs : List Doc) (qEmb : List ℚ) (qNorm : ℚ) (perDocN : Nat),
      searchHandler docs qEmb qNorm perDocN = .error .notReady ↔ docs = [] := by
  intro docs qEmb qNorm perDocN
  unfold searchHandler
  by_cases h : docs.isEmpty
  · rw [if_pos h]
    simp only [List.isEmpty_iff] at h
    simp [h]
  · rw [if_neg h]
    simp only [List.isEmpty_iff] at h
    simp [h]

/-- C1 counterexample: a reachable workspace state (a provider failure
aborted the embed phase after extraction) in which no chunk carries an
embedding, yet `search` does not raise NotReady: it returns a result list
with score 0 instead. -/
theorem C1_counterexample :
    (∀ d ∈ (runPreprocess [FileEntry.txt "a" "hello".toList]
        ⟨"h", "m", "", 1200, 200⟩ (fun _ => Except.error "boom") (fun _ => 0)
        none).docs, ∀ c ∈ d.chunks, c.embedding = none) ∧
    searchHandler (runPreprocess [FileEntry.txt "a" "hello".toList]
        ⟨"h", "m", "", 1200, 200⟩ (fun _ => Except.error "boom") (fun _ => 0)
        none).docs [1] 1 3 =
      .ok (some [⟨"a", [⟨"a::0", 0, 1, "hello".toList⟩]⟩]) := by
  constructor
  · decide
  · decide

/-! ## The embedding/norm consistency invariant (C8, C10) -/

/-- The Chunk invariant of spec §3: embedding and norm are either both
absent (norm 0 being the creation value representing an absent norm) or both
present and consistent with the norm function. -/
def ChunkOK (nrm : List ℚ → ℚ) (c : Chunk) : Prop :=
  (c.embedding = none ∧ c.norm = 0) ∨ ∃ e, c.embedding = some e ∧ c.norm = nrm e

/-- The creation state of a chunk: `embedding: null, norm: 0`. -/
def ChunkInit (c : Chunk) : Prop := c.embedding = none ∧ c.norm = 0

lemma assignIds_init : ∀ (pcs : List PChunk) (gid : Nat),
    ∀ ck ∈ assignIds pcs gid, ChunkInit ck := by
  intro pcs
  induction pcs with
  | nil => intro gid ck h; cases h
  | cons pc pcs ih =>
    intro gid ck h
    rcases List.mem_cons.mp h with h | h
    · rw [h]; exact ⟨rfl, rfl⟩
    · exact ih (gid + 1) ck h

lemma chunksOfPages_init (cs : Settings) :
    ∀ (pages : List (List Char)) (pageNo gid : Nat),
      ∀ ck ∈ (chunksOfPages cs pages pageNo gid).1, ChunkInit ck := by
  intro pages
  induction pages with
  | nil => intro pageNo gid ck h; cases h
  | cons t ts ih =>
    intro pageNo gid ck h
    simp only [chunksOfPages] at h
    rcases List.mem_append.mp h with h | h
    · exact assignIds_init _ _ ck h
    · exact ih _ _ ck h

lemma setDoc_mem : ∀ (docs : List Doc) (d x : Doc),
    x ∈ setDoc docs d → x ∈ docs ∨ x = d := by
  intro docs d x h
  unfold setDoc at h
  split at h
  · rcases List.mem_map.mp h with ⟨y, hy, hxy⟩
    by_cases hid : (y.id == d.id) = true
    · rw [if_pos hid] at hxy
      right
      exact hxy.symm
    · rw [if_neg hid] at hxy
      left
      exact hxy ▸ hy
  · rcases List.mem_append.mp h with h | h
    · left; exact h
    · right; simpa using h

lemma extractFileState_init (cs : Settings) (gid : Nat) (docs : List Doc)
    (f : FileEntry) (h : ∀ d ∈ docs, ∀ c ∈ d.chunks, ChunkInit c) :
    ∀ d ∈ (extractFileState cs gid docs f).2, ∀ c ∈ d.chunks, ChunkInit c := by
  intro d hd c hc
  match f with
  | .other p =>
    simp only [extractFileState] at hd
    exact h d hd c hc
  | .pdf p pages =>
    simp only [extractFileState] at hd
    rcases setDoc_mem docs _ d hd with hmem | hEq
    · exact h d hmem c hc
    · rw [hEq] at hc
      exact chunksOfPages_init cs pages 1 gid c hc
  | .txt p content =>
    simp only [extractFileState] at hd
    rcases setDoc_mem docs _ d hd with hmem | hEq
    · exact h d hmem c hc
    · rw [hEq] at hc
      exact chunksOfPages_init cs [content] 1 gid c hc

lemma extractLoop_init (cs : Settings) (cf : Option Nat) (total : Nat) :
    ∀ fs idx gid docs, (∀ d ∈ docs, ∀ c ∈ d.chunks, ChunkInit c) →
      ∀ docs' evs gid', extractLoop cs cf total fs idx gid docs = .done docs' evs gid' →
        ∀ d ∈ docs', ∀ c ∈ d.chunks, ChunkInit c := by
  intro fs
  induction fs with
  | nil =>
    intro idx gid docs h docs' evs gid' hEq
    rw [extractLoop] at hEq
    cases hEq
    exact h
  | cons f fs ih =>
    intro idx gid docs h docs' evs gid' hEq
    rw [extractLoop] at hEq
    split at hEq
    · cases hEq
    · split at hEq
      · cases hEq
      · cases hEq
        exact ih (idx + 1) _ _ (extractFileState_init cs gid docs f h) _ _ _
          (by assumption)

lemma applyChunks_ok (nrm : List ℚ → ℚ) : ∀ (cks : List Chunk) (es : List (List ℚ)),
    (∀ c ∈ cks, ChunkInit c) → ∀ c ∈ (applyChunks nrm cks es).1, ChunkOK nrm c := by
  intro cks
  induction cks with
  | nil =>
    intro es h c hc
    match es with
    | [] => simp [applyChunks] at hc
    | e :: es => simp [applyChunks] at hc
  | cons ck cks ih =>
    intro es h c hc
    match es with
    | [] =>
      simp only [applyChunks] at hc
      exact Or.inl (h c hc)
    | e :: es =>
      simp only [applyChunks] at hc
      rcases List.mem_cons.mp hc with hc | hc
      · right
        exact ⟨e, by rw [hc], by rw [hc]⟩
      · exact ih es (fun c' hcc => h c' (List.mem_cons_of_mem ck hcc)) c hc

lemma applyDocs_ok (nrm : List ℚ → ℚ) : ∀ (ds : List Doc) (es : List (List ℚ)),
    (∀ d ∈ ds, ∀ c ∈ d.chunks, ChunkInit c) →
    ∀ d ∈ applyDocs nrm ds es, ∀ c ∈ d.chunks, ChunkOK nrm c := by
  intro ds
  induction ds with
  | nil => intro es h d hd; simp [applyDocs] at hd
  | cons d0 ds ih =>
    intro es h d hd c hc
    simp only [applyDocs] at hd
    rcases List.mem_cons.mp hd with hd | hd
    · rw [hd] at hc
      exact applyChunks_ok nrm d0.chunks es (h d0 (List.mem_cons_self d0 ds)) c hc
    · exact ih _ (fun d' hd' => h d' (List.mem_cons_of_mem d0 hd')) d hd c hc

lemma runPreprocess_chunkOK (files : List FileEntry) (cs : Settings)
    (embedFn : List (List Char) → Except String (List (List ℚ)))
    (nrm : List ℚ → ℚ) (cf : Option Nat) :
    ∀ d ∈ (runPreprocess files cs embedFn nrm cf).docs,
      ∀ c ∈ d.chunks, ChunkOK nrm c := by
  cases hE : extractLoop cs cf files.length files 0 0 [] with
  | cancelled evs =>
    rw [runPreprocess_extract_cancelled hE]
    intro d hd
    cases hd
  | done docs evs gid =>
    have hinit : ∀ d ∈ docs, ∀ c ∈ d.chunks, ChunkInit c :=
      extractLoop_init cs cf files.length files 0 0 []
        (by intro d hd; cases hd) docs evs gid hE
    cases hB : embedLoop embedFn cf files.length (flatTexts docs).length
        (flatTexts docs).length (flatTexts docs) 0 0 with
    | cancelled evs2 =>
      rw [runPreprocess_embed_cancelled hE hB]
      intro d hd
      cases hd
    | failed m embs evs2 =>
      rw [runPreprocess_embed_failed hE hB]
      exact applyDocs_ok nrm docs embs hinit
    | done embs evs2 =>
      rw [runPreprocess_embed_done hE hB]
      exact applyDocs_ok nrm docs embs hinit

/-- C8: after any preprocessing run — completed, aborted mid-run by a
provider error (leaving a partially embedded state), or cancelled (empty
state) — every chunk's embedding and stored norm are either both absent
(their creation values `null`/`0`) or both present with the norm equal to
the norm function's value on the embedding vector.  The statement quantifies
over the norm function `nrm` the embed phase uses, in particular the
Euclidean norm computed by `norm` (main.js 168-170); the search path reads
but never mutates this state (it is a pure function of it in this model). -/
theorem C8_embedding_norm_invariant :
    ∀ files cs embedFn nrm cancelFrom,
      ∀ d ∈ (runPreprocess files cs embedFn nrm cancelFrom).docs,
        ∀ c ∈ d.chunks,
          (c.embedding = none ∧ c.norm = 0) ∨
          ∃ e, c.embedding = some e ∧ c.norm = nrm e := by
  intro files cs embedFn nrm cancelFrom
  exact runPreprocess_chunkOK files cs embedFn nrm cancelFrom

def exSettings : Settings := ⟨"h", "m", "", 1200, 200⟩

def exOkRun : PreResult :=
  runPreprocess [FileEntry.txt "a" "hello".toList] exSettings
    (fun l => Except.ok (l.map (fun _ => [(1 : ℚ), 0]))) (fun _ => 7) none

def exOkDoc : Doc := ⟨"a", "a", 1, [⟨0, 1, "hello".toList, some [(1 : ℚ), 0], 7⟩]⟩

def exOkChunk : Chunk := ⟨0, 1, "hello".toList, some [(1 : ℚ), 0], 7⟩

/-- C8 witness: a completed run over one text file; its single chunk holds
the provider's vector together with the matching norm. -/
theorem C8_embedding_norm_invariant_witness :
    exOkDoc ∈ exOkRun.docs ∧ exOkChunk ∈ exOkDoc.chunks ∧
    exOkChunk.embedding = some [(1 : ℚ), 0] ∧ exOkChunk.norm = 7 := by
  have h := C8_embedding_norm_invariant [FileEntry.txt "a" "hello".toList]
    exSettings (fun l => Except.ok (l.map (fun _ => [(1 : ℚ), 0]))) (fun _ => 7)
    none exOkDoc (by decide) exOkChunk (by decide)
  refine ⟨by decide, by decide, ?_, ?_⟩
  · rcases h with ⟨hnone, _⟩ | ⟨e, hsome, _⟩
    · exact absurd hnone (by decide)
    · rw [hsome]
      have : some e = some [(1 : ℚ), 0] := by rw [← hsome]; decide
      rw [Option.some.inj this]
  · rcases h with ⟨hnone, _⟩ | ⟨e, hsome, hnorm⟩
    · exact absurd hnone (by decide)
    · rw [hnorm]

/-- C10: chunk scoring in search is total even for a chunk whose embedding
is absent: on every state a preprocessing run can produce — in particular
one left accumulated by a mid-run provider error — every chunk yields `some`
score (the zero-norm guard short-circuits before the absent embedding would
be dereferenced inside `dot`), and a chunk with an absent embedding scores
exactly `some 0`. -/
theorem C10_absent_embedding_scores_zero :
    ∀ files cs embedFn nrm cancelFrom (qEmb : List ℚ) (qNorm : ℚ),
      ∀ d ∈ (runPreprocess files cs embedFn nrm cancelFrom).docs,
        ∀ c ∈ d.chunks,
          (∃ s, chunkScoreE qEmb qNorm c = some s) ∧
          (c.embedding = none → chunkScoreE qEmb qNorm c = some 0) := by
  intro files cs embedFn nrm cancelFrom qEmb qNorm d hd c hc
  have hok := runPreprocess_chunkOK files cs embedFn nrm cancelFrom d hd c hc
  constructor
  · by_cases hg : qNorm ≠ 0 ∧ c.norm ≠ 0
    · rcases hok with ⟨hnone, hzero⟩ | ⟨e, hsome, _⟩
      · exact absurd hzero hg.2
      · exact ⟨dotQ qEmb e / (qNorm * c.norm),
          by rw [chunkScoreE, if_pos hg, hsome]; rfl⟩
    · exact ⟨0, by rw [chunkScoreE, if_neg hg]⟩
  · intro hnone
    have hzero : c.norm = 0 := by
      rcases hok with ⟨_, h0⟩ | ⟨e, hsome, _⟩
      · exact h0
      · rw [hnone] at hsome
        cases hsome
    rw [chunkScoreE, if_neg (by simp [hzero])]

def exErrRun : PreResult :=
  runPreprocess [FileEntry.txt "a" "hello".toList] exSettings
    (fun _ => Except.error "boom") (fun _ => 0) none

def exErrDoc : Doc := ⟨"a", "a", 1, [⟨0, 1, "hello".toList, none, 0⟩]⟩

def exErrChunk : Chunk := ⟨0, 1, "hello".toList, none, 0⟩

/-- C10 witness: the state left by a run whose embed call failed holds an
extracted chunk with no embedding; scoring it yields `some 0`. -/
theorem C10_absent_embedding_scores_zero_witness :
    exErrDoc ∈ exErrRun.docs ∧ exErrChunk ∈ exErrDoc.chunks ∧
    exErrChunk.embedding = none ∧
    chunkScoreE [1] 1 exErrChunk = some 0 :=
  ⟨by decide, by decide, by decide,
   (C10_absent_embedding_scores_zero [FileEntry.txt "a" "hello".toList] exSettings
      (fun _ => Except.error "boom") (fun _ => 0) none [1] 1 exErrDoc (by decide)
      exErrChunk (by decide)).2 (by decide)⟩

/-! ## Cosine similarity over ℝ (C6) -/

/-- `dot(a, b)` (main.js 163-167) over real scalars (the JS floats). -/
def dot (a b : List ℝ) : ℝ := (List.zipWith (· * ·) a b).sum

/-- `norm(a) = Math.sqrt(dot(a, a))` (main.js 168-170). -/
noncomputable def norm (a : List ℝ) : ℝ := Real.sqrt (dot a a)

/-- The similarity expression of the search handler (main.js 330) with both
norms computed by `norm`:
`qNorm && c.norm ? dot(qEmb, c.embedding) / (qNorm * c.norm) : 0`
(a JS number is truthy iff nonzero and not NaN; norms are nonnegative). -/
noncomputable def similarity (q e : List ℝ) : ℝ :=
  if norm q ≠ 0 ∧ norm e ≠ 0 then dot q e / (norm q * norm e) else 0

lemma dot_ex_one : dot [1, 0] [1, 0] = 1 := by
  simp [dot]

lemma dot_ex_zero : dot [1, 0] [0, 1] = 0 := by
  simp [dot]

lemma norm_ex_10 : norm [1, 0] = 1 := by
  rw [norm, dot_ex_one]
  exact Real.sqrt_one

lemma norm_ex_01 : norm [0, 1] = 1 := by
  rw [norm]
  have : dot [0, 1] [0, 1] = 1 := by simp [dot]
  rw [this]
  exact Real.sqrt_one

lemma norm_ex_00 : norm [0, 0] = 0 := by
  rw [norm]
  have : dot [0, 0] [0, 0] = 0 := by simp [dot]
  rw [this]
  exact Real.sqrt_zero

/-- C6: the similarity score is `dot(q,e) / (‖q‖·‖e‖)` whenever both norms
are nonzero, and exactly 0 whenever either norm is zero — the guarded
expression never divides by zero and is total (in this real-valued embedding
no NaN can arise); concretely `sim([1,0],[1,0]) = 1`, `sim([1,0],[0,1]) = 0`
and a zero-norm vector scores 0. -/
theorem C6_cosine_guard :
    (∀ q e : List ℝ, (norm q = 0 ∨ norm e = 0) → similarity q e = 0) ∧
    (∀ q e : List ℝ, norm q ≠ 0 → norm e ≠ 0 →
      similarity q e = dot q e / (norm q * norm e)) ∧
    similarity [1, 0] [1, 0] = 1 ∧
    similarity [1, 0] [0, 1] = 0 ∧
    similarity [0, 0] [1, 0] = 0 := by
  have hzero : ∀ q e : List ℝ, (norm q = 0 ∨ norm e = 0) → similarity q e = 0 := by
    intro q e h
    rw [similarity, if_neg]
    rintro ⟨h1, h2⟩
    rcases h with h | h
    · exact h1 h
    · exact h2 h
  have hpos : ∀ q e : List ℝ, norm q ≠ 0 → norm e ≠ 0 →
      similarity q e = dot q e / (norm q * norm e) := by
    intro q e h1 h2
    rw [similarity, if_pos ⟨h1, h2⟩]
  refine ⟨hzero, hpos, ?_, ?_, ?_⟩
  · rw [hpos [1, 0] [1, 0] (by rw [norm_ex_10]; exact one_ne_zero)
      (by rw [norm_ex_10]; exact one_ne_zero), dot_ex_one, norm_ex_10]
    norm_num
  · rw [hpos [1, 0] [0, 1] (by rw [norm_ex_10]; exact one_ne_zero)
      (by rw [norm_ex_01]; exact one_ne_zero), dot_ex_zero]
    simp
  · exact hzero [0, 0] [1, 0] (Or.inl norm_ex_00)

/-- C6 witness: the guard and the formula applied at concrete vectors. -/
theorem C6_cosine_guard_witness :
    similarity [0, 0] [1, 0] = 0 ∧
    similarity [1, 0] [1, 0] = dot [1, 0] [1, 0] / (norm [1, 0] * norm [1, 0]) :=
  ⟨C6_cosine_guard.1 [0, 0] [1, 0] (Or.inl norm_ex_00),
   C6_cosine_guard.2.1 [1, 0] [1, 0] (by rw [norm_ex_10]; exact one_ne_zero)
     (by rw [norm_ex_10]; exact one_ne_zero)⟩

/-! ## Embedding endpoint URL normalization (C9) -/

/-- Whether `a` stands at the head of `b` (Boolean pattern test on code
units). -/
def leadsB : List Char → List Char → Bool
  | [], _ => true
  | _ :: _, [] => false
  | a :: as, b :: bs => a == b && leadsB as bs

/-- Whether `pat` occurs as a contiguous run anywhere in `l` (the substring
search behind `String.prototype.indexOf`). -/
def insideB (pat : List Char) : List Char → Bool
  | [] => leadsB pat []
  | c :: t => leadsB pat (c :: t) || insideB pat t

/-- `str.replace(pat, rep)` with a string pattern: replace only the leftmost
occurrence, or return the input unchanged when there is none. -/
def replaceFirstL (pat rep : List Char) : List Char → List Char
  | [] => []
  | c :: rest =>
    if leadsB pat (c :: rest) then rep ++ (c :: rest).drop pat.length
    else c :: replaceFirstL pat rep rest

/-- `new URL('/v1/embeddings', host)` per the WHATWG URL standard: an
absolute-path reference discards the base's own path, giving
`scheme://authority/v1/embeddings`.  The host setting enters as its parsed
scheme and authority; in a parsed special-scheme URL neither part contains
`/`. -/
def joinEmbeddingsPath (scheme authority : List Char) : List Char :=
  scheme ++ (':' :: '/' :: '/' :: (authority ++ "/v1/embeddings".toList))

/-- The URL built by `embedBatch` (main.js 146):
`new URL('/v1/embeddings', host).toString().replace('/v1/v1/', '/v1/')`. -/
def embedUrlChars (scheme authority : List Char) : List Char :=
  replaceFirstL "/v1/v1/".toList "/v1/".toList (joinEmbeddingsPath scheme authority)

example : embedUrlChars "http".toList "localhost:11434".toList
    = "http://localhost:11434/v1/embeddings".toList := by decide
example : embedUrlChars "http".toList ['v', '1']
    = "http://v1/embeddings".toList := by decide

lemma leadsB_iff : ∀ (a b : List Char), leadsB a b = true ↔ ∃ t, b = a ++ t := by
  intro a
  induction a with
  | nil =>
    intro b
    simp only [leadsB, List.nil_append, true_iff]
    exact ⟨b, rfl⟩
  | cons c as ih =>
    intro b
    match b with
    | [] =>
      simp only [leadsB, List.cons_append]
      constructor
      · intro h; cases h
      · rintro ⟨t, ht⟩; cases ht
    | d :: bs =>
      simp only [leadsB, Bool.and_eq_true, beq_iff_eq, List.cons_append]
      constructor
      · rintro ⟨rfl, h⟩
        obtain ⟨t, rfl⟩ := (ih bs).mp h
        exact ⟨t, rfl⟩
      · rintro ⟨t, ht⟩
        injection ht with h1 h2
        exact ⟨h1.symm, (ih bs).mpr ⟨t, h2⟩⟩

lemma leads_head_ne {c d : Char} {p l : List Char}
    (h : leadsB (c :: p) (d :: l) = true) : c = d ∧ leadsB p l = true := by
  simpa [leadsB, Bool.and_eq_true, beq_iff_eq] using h

lemma inside_strip (pat : List Char) (hpat : ∃ p, pat = '/' :: p) :
    ∀ (s r : List Char), (∀ ch ∈ s, ch ≠ '/') →
      insideB pat (s ++ r) = true → insideB pat r = true := by
  intro s
  induction s with
  | nil => intro r _ hin; simpa using hin
  | cons c s' ih =>
    intro r h hin
    simp only [List.cons_append, insideB, Bool.or_eq_true] at hin
    rcases hin with hlead | hin
    · exfalso
      obtain ⟨p, rfl⟩ := hpat
      obtain ⟨h1, _⟩ := leads_head_ne hlead
      exact h c (List.mem_cons_self c s') h1.symm
    · exact ih r (fun ch hch => h ch (List.mem_cons_of_mem c hch)) hin

lemma replaceFirstL_strip (pat rep : List Char) (hpat : ∃ p, pat = '/' :: p) :
    ∀ (s r : List Char), (∀ ch ∈ s, ch ≠ '/') →
      replaceFirstL pat rep (s ++ r) = s ++ replaceFirstL pat rep r := by
  intro s
  induction s with
  | nil => intro r _; simp
  | cons c s' ih =>
    intro r h
    simp only [List.cons_append, replaceFirstL, List.append_eq]
    rw [if_neg, ih r (fun ch hch => h ch (List.mem_cons_of_mem c hch))]
    obtain ⟨p, rfl⟩ := hpat
    intro hlead
    obtain ⟨h1, _⟩ := leads_head_ne hlead
    exact h c (List.mem_cons_self c s') h1.symm

lemma replaceFirstL_of_not_inside (pat rep : List Char) :
    ∀ l : List Char, insideB pat l = false → replaceFirstL pat rep l = l := by
  intro l
  induction l with
  | nil => intro _; rfl
  | cons c rest ih =>
    intro h
    simp only [insideB, Bool.or_eq_false_iff] at h
    simp only [replaceFirstL]
    rw [if_neg (by simp [h.1]), ih h.2]

lemma patDouble_eq : "/v1/v1/".toList
    = '/' :: 'v' :: '1' :: '/' :: 'v' :: '1' :: '/' :: [] := by decide

lemma leads_auth_case (authority : List Char)
    (ha : ∀ ch ∈ authority, ch ≠ '/')
    (h : leadsB ('/' :: 'v' :: '1' :: '/' :: 'v' :: '1' :: '/' :: [])
      ('/' :: (authority ++ "/v1/embeddings".toList)) = true) :
    authority = ['v', '1'] := by
  rw [leadsB_iff] at h
  obtain ⟨t, ht⟩ := h
  injection ht with _ h2
  have hpath : "/v1/embeddings".toList
      = '/' :: 'v' :: '1' :: "/embeddings".toList := by decide
  match authority, ha with
  | [], _ =>
    rw [List.nil_append, hpath] at h2
    injection h2 with hx _
    exact absurd hx (by decide)
  | [a], ha =>
    rw [List.cons_append, List.nil_append, hpath] at h2
    injection h2 with _ h3
    injection h3 with hx _
    exact absurd hx (by decide)
  | [a, b], ha =>
    simp only [List.cons_append, List.nil_append] at h2
    injection h2 with ha1 h3
    injection h3 with hb1 _
    rw [ha1, hb1]
  | a :: b :: c3 :: rest, ha =>
    simp only [List.cons_append] at h2
    injection h2 with _ h3
    injection h3 with _ h4
    injection h4 with hc3 _
    exact absurd hc3 (ha c3 (by simp))

lemma joined_inside_auth (scheme authority : List Char)
    (hs : ∀ ch ∈ scheme, ch ≠ '/') (ha : ∀ ch ∈ authority, ch ≠ '/')
    (h : insideB "/v1/v1/".toList (joinEmbeddingsPath scheme authority) = true) :
    authority = ['v', '1'] := by
  rw [joinEmbeddingsPath] at h
  have h1 := inside_strip _ ⟨"v1/v1/".toList, by decide⟩ scheme _ hs h
  rw [patDouble_eq] at h1
  simp only [insideB, Bool.or_eq_true] at h1
  rcases h1 with h1 | h1 | h1 | h1
  · exact absurd (leads_head_ne h1).1 (by decide)
  · exact absurd (leads_head_ne (leads_head_ne h1).2).1 (by decide)
  · exact leads_auth_case authority ha h1
  · have h2 := inside_strip _ ⟨'v' :: '1' :: '/' :: 'v' :: '1' :: '/' :: [], rfl⟩
      authority _ ha h1
    exact absurd h2 (by decide)

/-- C9: for every host (parsed as a slash-free scheme and authority), the
URL `embedBatch` sends the embeddings request to never contains a double
`/v1/v1/` segment: WHATWG resolution of the absolute path `/v1/embeddings`
discards the base path, and the single `/v1/v1/` that can still arise (an
authority literally named `v1`) is normalized to a single `/v1/` by the
`replace`. -/
theorem C9_url_normalization :
    ∀ scheme authority : List Char,
      (∀ ch ∈ scheme, ch ≠ '/') → (∀ ch ∈ authority, ch ≠ '/') →
      insideB "/v1/v1/".toList (embedUrlChars scheme authority) = false := by
  intro scheme authority hs ha
  by_cases hv : authority = ['v', '1']
  · subst hv
    rw [embedUrlChars, joinEmbeddingsPath,
      replaceFirstL_strip _ _ ⟨"v1/v1/".toList, by decide⟩ scheme _ hs]
    have hconc : replaceFirstL "/v1/v1/".toList "/v1/".toList
        (':' :: '/' :: '/' :: (['v', '1'] ++ "/v1/embeddings".toList))
        = "://v1/embeddings".toList := by decide
    rw [hconc]
    by_contra hcon
    rw [Bool.not_eq_false] at hcon
    have h1 := inside_strip _ ⟨"v1/v1/".toList, by decide⟩ scheme _ hs hcon
    exact absurd h1 (by decide)
  · have hno : insideB "/v1/v1/".toList (joinEmbeddingsPath scheme authority)
        = false := by
      by_contra hcon
      rw [Bool.not_eq_false] at hcon
      exact hv (joined_inside_auth scheme authority hs ha hcon)
    rw [embedUrlChars, replaceFirstL_of_not_inside _ _ _ hno]
    exact hno

/-- C9 witness: a typical local embedding host. -/
theorem C9_url_normalization_witness :
    insideB "/v1/v1/".toList
      (embedUrlChars "http".toList "localhost:11434".toList) = false :=
  C9_url_normalization "http".toList "localhost:11434".toList
    (by decide) (by decide)

/-! ## Top-N ranking (C7) -/

/-- `a` stands at the head of `b`: `∃ t, a ++ t = b`. -/
def listLeads {α : Type _} (a b : List α) : Prop := ∃ t, a ++ t = b

lemma optMapM_length {α β : Type _} {f : α → Option β} :
    ∀ {l : List α} {ys : List β}, optMapM f l = some ys → ys.length = l.length := by
  intro l
  induction l with
  | nil =>
    intro ys h
    rw [optMapM] at h
    cases h
    rfl
  | cons x xs ih =>
    intro ys h
    rw [optMapM] at h
    rcases hfx : f x with _ | y <;> rw [hfx] at h
    · cases h
    · rcases hxs : optMapM f xs with _ | ys' <;> rw [hxs] at h
      · cases h
      · cases h
        simp [ih hxs]

lemma optMapM_mem {α β : Type _} {f : α → Option β} :
    ∀ {l : List α} {ys : List β}, optMapM f l = some ys →
      ∀ y ∈ ys, ∃ x ∈ l, f x = some y := by
  intro l
  induction l with
  | nil =>
    intro ys h y hy
    rw [optMapM] at h
    cases h
    cases hy
  | cons x xs ih =>
    intro ys h y hy
    rw [optMapM] at h
    rcases hfx : f x with _ | y0 <;> rw [hfx] at h
    · cases h
    · rcases hxs : optMapM f xs with _ | ys' <;> rw [hxs] at h
      · cases h
      · cases h
        rcases List.mem_cons.mp hy with hy | hy
        · exact ⟨x, List.mem_cons_self x xs, hy ▸ hfx⟩
        · rcases ih hxs y hy with ⟨x', hx', hfx'⟩
          exact ⟨x', List.mem_cons_of_mem x hx', hfx'⟩

lemma optMapM_forward {α β : Type _} {f : α → Option β} :
    ∀ {l : List α} {ys : List β}, optMapM f l = some ys →
      ∀ x ∈ l, ∃ y ∈ ys, f x = some y := by
  intro l
  induction l with
  | nil =>
    intro ys h x hx
    cases hx
  | cons x0 xs ih =>
    intro ys h x hx
    rw [optMapM] at h
    rcases hfx : f x0 with _ | y0 <;> rw [hfx] at h
    · cases h
    · rcases hxs : optMapM f xs with _ | ys' <;> rw [hxs] at h
      · cases h
      · cases h
        rcases List.mem_cons.mp hx with hx | hx
        · exact ⟨y0, List.mem_cons_self y0 ys', hx ▸ hfx⟩
        · rcases ih hxs x hx with ⟨y, hy, hfy⟩
          exact ⟨y, List.mem_cons_of_mem y0 hy, hfy⟩

lemma docHitList_length {qEmb : List ℚ} {qNorm : ℚ} {d : Doc} {hs : List Hit}
    (h : docHitList qEmb qNorm d = some hs) : hs.length = d.chunks.length :=
  optMapM_length h

lemma orderedInsert_filter_score (x : Hit) (s : ℚ) :
    ∀ l : List Hit,
      (List.orderedInsert hitRel x l).filter (fun h => decide (h.score = s))
        = if x.score = s then
            x :: l.filter (fun h => decide (h.score = s))
          else l.filter (fun h => decide (h.score = s)) := by
  intro l
  induction l with
  | nil =>
    by_cases hx : x.score = s
    · simp [List.orderedInsert, List.filter_cons, hx]
    · simp [List.orderedInsert, List.filter_cons, hx]
  | cons y ys ih =>
    simp only [List.orderedInsert]
    by_cases hr : hitRel x y
    · rw [if_pos hr]
      by_cases hx : x.score = s
      · simp [List.filter_cons, hx]
      · simp [List.filter_cons, hx]
    · rw [if_neg hr]
      have hlt : x.score < y.score := by
        have hr' := hr
        simp only [hitRel, not_le] at hr'
        exact hr'
      by_cases hx : x.score = s
      · have hy : ¬ y.score = s := by
          intro hcon
          rw [hx, hcon] at hlt
          exact lt_irrefl s hlt
        simp [List.filter_cons, hy, ih, hx]
      · by_cases hy : y.score = s
        · simp [List.filter_cons, hy, ih, hx]
        · simp [List.filter_cons, hy, ih, hx]

lemma insertionSort_filter_score (s : ℚ) :
    ∀ l : List Hit,
      (List.insertionSort hitRel l).filter (fun h => decide (h.score = s))
        = l.filter (fun h => decide (h.score = s)) := by
  intro l
  induction l with
  | nil => rfl
  | cons x xs ih =>
    simp only [List.insertionSort]
    rw [orderedInsert_filter_score]
    by_cases hx : x.score = s
    · rw [if_pos hx, ih]
      simp [List.filter_cons, hx]
    · rw [if_neg hx, ih]
      simp [List.filter_cons, hx]

lemma filter_take_leads {α : Type _} (p : α → Bool) :
    ∀ (l : List α) (n : Nat), listLeads ((l.take n).filter p) (l.filter p) := by
  intro l
  induction l with
  | nil =>
    intro n
    rw [List.take_nil]
    exact ⟨[], rfl⟩
  | cons c cs ih =>
    intro n
    match n with
    | 0 => exact ⟨(c :: cs).filter p, rfl⟩
    | n + 1 =>
      rw [List.take_succ_cons, List.filter_cons, List.filter_cons]
      by_cases hc : p c = true
      · rw [if_pos hc, if_pos hc]
        rcases ih n with ⟨t, ht⟩
        exact ⟨t, by rw [List.cons_append, ht]⟩
      · rw [if_neg hc, if_neg hc]
        exact ih n

/-- C7: whenever the search scan succeeds, the outer result list is sorted
descending by each document's first-hit score; every result entry comes from
a document with at least one chunk and holds that document's stable
top-`perDocN` hits — sorted descending, `min perDocN (#chunks)` of them, a
prefix-selection of a permutation of the per-chunk score list dominating
everything left out, with equal-score hits kept in original chunk-ordinal
order (its filter at every score level is a prefix of the unsorted one);
and every document with at least one chunk contributes an entry. -/
theorem C7_topN_ranking :
    ∀ (qEmb : List ℚ) (qNorm : ℚ) (perDocN : Nat) (docs : List Doc)
      (res : List DocResult),
      searchCore qEmb qNorm perDocN docs = some res →
      List.Sorted outerRel res ∧
      (∀ r ∈ res, ∃ d ∈ docs, r.docId = d.id ∧ d.chunks ≠ [] ∧
        ∃ hs, docHitList qEmb qNorm d = some hs ∧
          List.Sorted hitRel r.hits ∧
          r.hits.length = min perDocN hs.length ∧
          (∃ rest, (r.hits ++ rest).Perm hs ∧
            ∀ h1 ∈ r.hits, ∀ h2 ∈ rest, h2.score ≤ h1.score) ∧
          (∀ s : ℚ, listLeads (r.hits.filter (fun h => decide (h.score = s)))
            (hs.filter (fun h => decide (h.score = s))))) ∧
      (∀ d ∈ docs, d.chunks ≠ [] → ∃ r ∈ res, r.docId = d.id) := by
  intro qEmb qNorm perDocN docs res hres
  rw [searchCore] at hres
  rcases Option.map_eq_some'.mp hres with ⟨pairs, hpairs, hresEq⟩
  have hperm : List.Perm (List.insertionSort outerRel (searchEntries perDocN pairs))
      (searchEntries perDocN pairs) := List.perm_insertionSort outerRel _
  refine ⟨?_, ?_, ?_⟩
  · rw [← hresEq]
    exact List.sorted_insertionSort outerRel _
  · intro r hr
    have hr' : r ∈ searchEntries perDocN pairs := by
      rw [← hresEq] at hr
      exact hperm.mem_iff.mp hr
    rcases List.mem_map.mp hr' with ⟨p, hpfil, hpr⟩
    rcases List.mem_filter.mp hpfil with ⟨hpmem, hpne⟩
    rcases optMapM_mem hpairs p hpmem with ⟨d, hd, hfd⟩
    rcases Option.map_eq_some'.mp hfd with ⟨hs, hhs, hpEq⟩
    have hp1 : p.1 = d.id := by rw [← hpEq]
    have hp2 : p.2 = hs := by rw [← hpEq]
    have hhsne : hs ≠ [] := by
      intro hcon
      rw [hp2, hcon] at hpne
      simp at hpne
    have hchne : d.chunks ≠ [] := by
      intro hcon
      have := docHitList_length hhs
      rw [hcon] at this
      simp at this
      exact hhsne this
    have hsorted := List.sorted_insertionSort hitRel hs
    have hpermS : List.Perm (List.insertionSort hitRel hs) hs :=
      List.perm_insertionSort hitRel hs
    refine ⟨d, hd, by rw [← hpr, hp1], hchne, hs, hhs, ?_, ?_, ?_, ?_⟩
    · rw [← hpr, hp2]
      exact List.Pairwise.sublist (List.take_sublist perDocN _) hsorted
    · rw [← hpr, hp2]
      show (List.take perDocN (List.insertionSort hitRel hs)).length
        = min perDocN hs.length
      rw [List.length_take, hpermS.length_eq]
    · refine ⟨(List.insertionSort hitRel hs).drop perDocN, ?_, ?_⟩
      · rw [← hpr, hp2]
        show List.Perm (List.take perDocN (List.insertionSort hitRel hs) ++
          (List.insertionSort hitRel hs).drop perDocN) hs
        rw [List.take_append_drop]
        exact hpermS
      · intro h1 hh1 h2 hh2
        rw [← hpr, hp2] at hh1
        have hsorted2 : List.Pairwise hitRel
            (List.take perDocN (List.insertionSort hitRel hs) ++
              (List.insertionSort hitRel hs).drop perDocN) := by
          rw [List.take_append_drop]
          exact hsorted
        exact (List.pairwise_append.mp hsorted2).2.2 h1 hh1 h2 hh2
    · intro s
      rw [← hpr, hp2]
      show listLeads
        ((List.take perDocN (List.insertionSort hitRel hs)).filter
          (fun h => decide (h.score = s)))
        (hs.filter (fun h => decide (h.score = s)))
      rw [← insertionSort_filter_score s hs]
      exact filter_take_leads _ _ perDocN
  · intro d hd hdne
    rcases optMapM_forward hpairs d hd with ⟨p, hpmem, hfd⟩
    rcases Option.map_eq_some'.mp hfd with ⟨hs, hhs, hpEq⟩
    have hp1 : p.1 = d.id := by rw [← hpEq]
    have hp2 : p.2 = hs := by rw [← hpEq]
    have hhsne : hs ≠ [] := by
      intro hcon
      have := docHitList_length hhs
      rw [hcon] at this
      simp at this
      exact hdne (List.length_eq_zero.mp this.symm)
    refine ⟨DocResult.mk p.1 ((List.insertionSort hitRel p.2).take perDocN), ?_, hp1⟩
    rw [← hresEq]
    refine hperm.mem_iff.mpr ?_
    refine List.mem_map.mpr ⟨p, ?_, rfl⟩
    refine List.mem_filter.mpr ⟨hpmem, ?_⟩
    rw [hp2]
    simp [hhsne]

def exRankDoc : Doc := ⟨"d", "d", 1,
  [⟨0, 1, "t0".toList, some [(9 : ℚ)/10], 1⟩,
   ⟨1, 1, "t1".toList, some [(1 : ℚ)/2], 1⟩,
   ⟨2, 1, "t2".toList, some [(9 : ℚ)/10], 1⟩]⟩

def exRankRes : List DocResult :=
  [⟨"d", [⟨"d::0", (9 : ℚ)/10, 1, "t0".toList⟩,
          ⟨"d::2", (9 : ℚ)/10, 1, "t2".toList⟩]⟩]

/-- C7 witness: chunk scores 0.9, 0.5, 0.9 at ordinals 0, 1, 2 with
`perDocN = 2` yield the hits of ordinals 0 and 2 in that order (equal scores
keep the original ordinal order). -/
theorem C7_topN_ranking_witness :
    searchCore [(1 : ℚ)] 1 2 [exRankDoc] = some exRankRes ∧
    List.Sorted outerRel exRankRes :=
  have h : searchCore [(1 : ℚ)] 1 2 [exRankDoc] = some exRankRes := by
    norm_num [searchCore, docHitList, optMapM, chunkScoreE, dotQ, mkHit,
      searchEntries, exRankDoc, exRankRes, List.insertionSort, List.orderedInsert,
      hitRel, outerRel, headScore, List.take, Nat.repr, Nat.toDigits,
      Nat.toDigitsCore, Nat.digitChar]
    exact ⟨by decide, by decide⟩
  ⟨h, (C7_topN_ranking [(1 : ℚ)] 1 2 [exRankDoc] exRankRes h).1⟩

end LitNav
